import Mathlib

/-!
Shallow embedding of the retrieval pipeline of the repository
(`backend/src/chunking.py`, `backend/src/vector_store.py`,
`src/retrieval.py`, `backend/src/context_assembly.py`) together with
proofs about the claims on chunking, vector search, retrieval and
context assembly.

Modelling conventions:
* Python `float` values (scores, vector components) are modelled as `Rat`.
* Python `dict` metadata records are modelled as association lists
  (`List (String × String)`); the empty record is `[]`.
* Fallible Python code (code that can `raise`) is modelled with
  `Except String`, where the error string is the raised message.
* The FAISS index (an external library, not part of the repository's
  sources) is modelled by the list of its stored rows; the reply of the
  external `index.search` call is an explicit input (`FaissReply`)
  constrained where needed by the documented FAISS contract
  (`FaissReply.wf`): `k` result slots, missing matches padded at the end
  with the sentinel index `-1`, genuine indices distinct and in range.
* Python's stable `sorted(..., key=..., reverse=...)` is modelled by the
  stable `List.insertionSort` (all stable sorts by the same key agree).
-/

/-- Python `dict` metadata records, as association lists. -/
abbrev Metadata := List (String × String)

/-- Python truthiness of an optional list argument (`if metadata:`):
`None` and the empty list are falsy. -/
def pyTruthy : Option (List α) → Bool
  | none => false
  | some [] => false
  | some (_ :: _) => true

/-- Python list indexing `l[i]`: non-negative indices from the front,
negative indices from the back, `IndexError` when out of range. -/
def pyGetElem (l : List α) (i : Int) : Except String α :=
  if h : 0 ≤ i ∧ i.toNat < l.length then .ok (l.get ⟨i.toNat, h.2⟩)
  else if h2 : i < 0 ∧ (i + l.length).toNat < l.length ∧ 0 ≤ i + l.length then
    .ok (l.get ⟨(i + l.length).toNat, h2.2.1⟩)
  else .error "IndexError: list index out of range"

/-- Python `" ".join(ws)`. -/
def pyJoin : List String → String
  | [] => ""
  | [w] => w
  | w :: ws => w ++ " " ++ pyJoin ws

/-- Helper for `pyWords`: scan the characters, accumulating the current
word in reverse; whitespace closes the current word (if any). -/
def pySplitWsAux : List Char → List Char → List String
  | [], [] => []
  | [], cur => [String.mk cur.reverse]
  | c :: rest, cur =>
    if c.isWhitespace then
      if cur.isEmpty then pySplitWsAux rest []
      else String.mk cur.reverse :: pySplitWsAux rest []
    else pySplitWsAux rest (c :: cur)

/-- Python `text.split()` (no separator): split on runs of whitespace,
discarding empty pieces.  `text.split()` is empty exactly when
`text.strip()` is empty, so it also models the guard
`not text or not text.strip()`. -/
def pyWords (t : String) : List String := pySplitWsAux t.data []

/-- A word produced by whitespace splitting: non-empty and containing no
whitespace characters. -/
def wordOk (w : String) : Prop := w ≠ "" ∧ ∀ c ∈ w.data, ¬ c.isWhitespace

instance : DecidablePred wordOk := fun w => by unfold wordOk; infer_instance

/-! ## TextChunker (`backend/src/chunking.py`) -/

/-- `TextChunker.__init__` stores `chunk_size` and `overlap`; an instance
can only exist when `overlap < chunk_size` (otherwise the constructor
raises), so the state carries that fact. -/
structure TextChunker where
  chunk_size : Nat
  overlap : Nat
  valid : overlap < chunk_size

/-- `TextChunker(chunk_size, overlap)`: raises `ValueError` when
`overlap >= chunk_size`. -/
def mkTextChunker (chunk_size overlap : Nat) : Except String TextChunker :=
  if h : chunk_size ≤ overlap then .error "Overlap must be less than chunk_size"
  else .ok ⟨chunk_size, overlap, by omega⟩

/-- The `while start < len(words)` loop of `chunk_by_words`, at the level
of word lists: emit `words[start : start + chunk_size]`, stop when the
window reaches the end, otherwise advance by `chunk_size - overlap`. -/
def TextChunker.chunkLoop (c : TextChunker) (words : List String) (start : Nat) :
    List (List String) :=
  if h : start < words.length then
    let chunk := (words.drop start).take c.chunk_size
    if words.length ≤ start + c.chunk_size then [chunk]
    else chunk :: c.chunkLoop words (start + (c.chunk_size - c.overlap))
  else []
termination_by words.length - start
decreasing_by
  have := c.valid
  omega

/-- `TextChunker.chunk_by_words`: empty/whitespace-only text gives `[]`;
at most `chunk_size` words give the single whitespace-normalized text
(`" ".join(text.split())`); otherwise the sliding-window loop. -/
def TextChunker.chunk_by_words (c : TextChunker) (text : String) : List String :=
  let words := pyWords text
  if words.isEmpty then []
  else if words.length ≤ c.chunk_size then [pyJoin words]
  else (c.chunkLoop words 0).map pyJoin

/-! ## VectorStore (`backend/src/vector_store.py`) -/

/-- State of a `VectorStore`: configuration, the rows stored in the FAISS
index, and the two parallel Python lists `chunks` and `metadata`. -/
structure VectorStore where
  dimension : Nat
  index_type : String
  vectors : List (List Rat)
  chunks : List String
  metadata : List Metadata
deriving DecidableEq

/-- `VectorStore.__init__` / `_initialize_index`: raises `ValueError`
for an unsupported `index_type`, otherwise an empty index. -/
def mkVectorStore (dimension : Nat) (index_type : String) : Except String VectorStore :=
  if index_type = "L2" ∨ index_type = "cosine" then
    .ok ⟨dimension, index_type, [], [], []⟩
  else .error ("Unsupported index_type: " ++ index_type)

/-- `VectorStore.add`.  The `astype('float32')` cast and, for the cosine
metric, the in-place `faiss.normalize_L2` are external numpy/faiss row
operations: they preserve the number of rows and no claim examines the
stored component values, so the rows are appended as given. -/
def VectorStore.add (s : VectorStore) (embeddings : List (List Rat))
    (chunks : List String) (metadata : Option (List Metadata)) :
    Except String VectorStore :=
  if embeddings.length ≠ chunks.length then
    .error "Number of embeddings must match number of chunks"
  else if pyTruthy metadata ∧ (metadata.getD []).length ≠ chunks.length then
    .error "Number of metadata items must match number of chunks"
  else
    .ok { s with
      vectors := s.vectors ++ embeddings,
      chunks := s.chunks ++ chunks,
      metadata := s.metadata ++
        (if pyTruthy metadata then metadata.getD []
         else chunks.map fun _ => ([] : Metadata)) }

/-- Raw reply of the external `faiss_index.search(query, k)` call:
one row of distances and one row of (possibly `-1`) indices. -/
structure FaissReply where
  distances : List Rat
  indices : List Int
deriving DecidableEq

/-- The documented FAISS contract for a reply on an index holding
`ntotal` rows when `k` neighbours were requested: both rows have length
`k`, and the index row is a list of distinct valid indices padded at the
end with the sentinel `-1` for the missing matches. -/
def FaissReply.wf (r : FaissReply) (ntotal k : Nat) : Prop :=
  r.distances.length = k ∧ r.indices.length = k ∧
  ∃ valid : List Int,
    r.indices = valid ++ List.replicate (k - valid.length) (-1) ∧
    valid.Nodup ∧ ∀ i ∈ valid, 0 ≤ i ∧ i.toNat < ntotal

/-- The dict returned by `VectorStore.search`. -/
structure SearchResult where
  chunks : List String
  distances : List Rat
  indices : List Int
  metadata : List Metadata
deriving DecidableEq

/-- Body of `VectorStore.search` after computing `valid_indices`: look
up the chunk texts and metadata at the valid indices (Python list
indexing, which raises `IndexError` out of range) and truncate the
distance row to the number of valid indices. -/
def searchCore (s : VectorStore) (valid : List Int) (distances : List Rat) :
    Except String SearchResult :=
  match valid.mapM (pyGetElem s.chunks) with
  | .error e => .error e
  | .ok cks =>
    match valid.mapM (pyGetElem s.metadata) with
    | .error e => .error e
    | .ok mds => .ok ⟨cks, distances.take valid.length, valid, mds⟩

/-- `VectorStore.search`, given the reply of the external FAISS call:
drop the `-1` sentinel indices
(`valid_indices = [idx for idx in indices[0] if idx != -1]`),
then build the result dict. -/
def VectorStore.search (s : VectorStore) (reply : FaissReply) :
    Except String SearchResult :=
  searchCore s (reply.indices.filter (fun i => i ≠ -1)) reply.distances

/-- The on-disk layout written by `VectorStore.save`: `index.faiss`,
`chunks.pkl`, `metadata.pkl` and the two fields of `config.json`. -/
structure SavedIndex where
  index_file : List (List Rat)
  chunks_file : List String
  metadata_file : List Metadata
  config_dimension : Nat
  config_index_type : String
deriving DecidableEq

/-- `VectorStore.save`: write the index rows, the chunk list, the
metadata list, and the config. -/
def VectorStore.save (s : VectorStore) : SavedIndex :=
  ⟨s.vectors, s.chunks, s.metadata, s.dimension, s.index_type⟩

/-- `VectorStore.load`: assign `self.dimension` and `self.index_type`
from `config.json`, then replace the index, chunks and metadata with the
on-disk data.  No compatibility check is performed and nothing is
raised, so the receiver's own configuration is discarded. -/
def VectorStore.load (_s : VectorStore) (d : SavedIndex) : VectorStore :=
  { dimension := d.config_dimension,
    index_type := d.config_index_type,
    vectors := d.index_file,
    chunks := d.chunks_file,
    metadata := d.metadata_file }

/-- The dict returned by `VectorStore.get_statistics`. -/
structure Stats where
  total_chunks : Nat
  dimension : Nat
  index_type : String
deriving DecidableEq

/-- `VectorStore.get_statistics`. -/
def VectorStore.get_statistics (s : VectorStore) : Stats :=
  ⟨s.chunks.length, s.dimension, s.index_type⟩

/-- `VectorStore.clear`: empty the two lists and re-create the FAISS
index (`_initialize_index` raises on an unsupported `index_type`). -/
def VectorStore.clear (s : VectorStore) : Except String VectorStore :=
  if s.index_type = "L2" ∨ s.index_type = "cosine" then
    .ok { s with vectors := [], chunks := [], metadata := [] }
  else .error ("Unsupported index_type: " ++ s.index_type)

/-- The parallel-array alignment invariant of the store
(`len(chunks) == len(metadata) ==` number of stored vectors). -/
def VectorStore.aligned (s : VectorStore) : Prop :=
  s.chunks.length = s.metadata.length ∧ s.metadata.length = s.vectors.length

instance (s : VectorStore) : Decidable s.aligned := by
  unfold VectorStore.aligned; infer_instance

/-! ## SemanticRetriever (`src/retrieval.py`) -/

/-- A retrieved item as built by `SemanticRetriever.retrieve`. -/
structure RetrievedItem where
  text : String
  score : Rat
  metadata : Metadata
  rank : Nat
deriving DecidableEq

/-- The result-formatting loop of `SemanticRetriever.retrieve`
(`for i in range(len(results['chunks']))`): under the cosine metric an
item whose score is below the threshold is skipped (`continue`), the
loop counter `i` is recorded as `rank` either way.  The final case is a
length mismatch between the three rows, which cannot arise for
`VectorStore.search` results (Python would raise there). -/
def formatLoop (index_type : String) (threshold : Rat) :
    Nat → List String → List Rat → List Metadata → List RetrievedItem
  | _, [], _, _ => []
  | i, t :: ts, d :: ds, m :: ms =>
    if index_type = "cosine" ∧ d < threshold then
      formatLoop index_type threshold (i + 1) ts ds ms
    else ⟨t, d, m, i⟩ :: formatLoop index_type threshold (i + 1) ts ds ms
  | _, _ :: _, _, _ => []

/-- The unfiltered enumeration of a search result in native rank order:
what `formatLoop` produces when no item is dropped. -/
def searchItems : Nat → List String → List Rat → List Metadata → List RetrievedItem
  | _, [], _, _ => []
  | i, t :: ts, d :: ds, m :: ms => ⟨t, d, m, i⟩ :: searchItems (i + 1) ts ds ms
  | _, _ :: _, _, _ => []

/-- State of a `SemanticRetriever` (the embedding generator is external;
query embeddings enter through the `FaissReply` of the search call). -/
structure SemanticRetriever where
  vector_store : VectorStore
  top_k : Nat
  similarity_threshold : Rat

/-- `SemanticRetriever.retrieve`, given the reply of the external FAISS
search issued with `k = k or self.top_k` neighbours: search the store,
then format and threshold-filter the rows.  Accessing
`results['distances'][i]` raises when the distance row is shorter than
the chunk row (it never is for well-formed replies). -/
def SemanticRetriever.retrieve (r : SemanticRetriever) (reply : FaissReply)
    (threshold : Option Rat) : Except String (List RetrievedItem) :=
  match r.vector_store.search reply with
  | .error e => .error e
  | .ok results =>
    if results.distances.length < results.chunks.length then
      .error "IndexError: list index out of range"
    else
      .ok (formatLoop r.vector_store.index_type
        (threshold.getD r.similarity_threshold) 0
        results.chunks results.distances results.metadata)

/-- The sort relation of `all_results.sort(key=lambda x: x['score'],
reverse=reverse_sort)`: descending scores when `reverse_sort` (cosine),
ascending otherwise. -/
def mqRel (reverse_sort : Bool) : RetrievedItem → RetrievedItem → Prop :=
  fun a b => if reverse_sort then b.score ≤ a.score else a.score ≤ b.score

instance (reverse_sort : Bool) : DecidableRel (mqRel reverse_sort) := fun a b => by
  unfold mqRel; infer_instance

/-- The dedup-and-truncate loop of `retrieve_multi_query`: append items
whose text was not seen yet, and break as soon as `k` items are
collected (the length test runs after every iteration, appended or
not). -/
def dedupLoop (k : Nat) (seen : List String) (acc : List RetrievedItem) :
    List RetrievedItem → List RetrievedItem
  | [] => acc
  | res :: rest =>
    let seen' := if res.text ∈ seen then seen else res.text :: seen
    let acc' := if res.text ∈ seen then acc else acc ++ [res]
    if k ≤ acc'.length then acc' else dedupLoop k seen' acc' rest

/-- Plain first-occurrence-wins text deduplication (no truncation);
the reference form of `dedupLoop` used in the statements. -/
def dedupAll (seen : List String) : List RetrievedItem → List RetrievedItem
  | [] => []
  | res :: rest =>
    if res.text ∈ seen then dedupAll seen rest
    else res :: dedupAll (res.text :: seen) rest

/-- `SemanticRetriever.retrieve_multi_query`, given the replies of the
per-query external FAISS searches (each issued with `k` neighbours):
retrieve per query with the default threshold, concatenate, stable-sort
by score (descending for cosine, ascending otherwise), then deduplicate
by exact text and truncate to `k`. -/
def SemanticRetriever.retrieve_multi_query (r : SemanticRetriever)
    (replies : List FaissReply) (k : Nat) : Except String (List RetrievedItem) :=
  match replies.mapM (fun rep => r.retrieve rep none) with
  | .error e => .error e
  | .ok lists =>
    .ok (dedupLoop k [] []
      ((lists.flatten).insertionSort (mqRel (r.vector_store.index_type = "cosine"))))

/-! ## ContextAssembler (`backend/src/context_assembly.py`) -/

/-- The accumulation loop of `truncate_to_fit` over the sorted chunks,
carrying `current_length`: a chunk that would overflow the budget stops
the loop, and if nothing has been accepted yet (`current_length == 0`)
a prefix of its text is accepted instead.  Python `len` on a `str` and
the slice `text[:max_length]` count and cut code points, i.e. the
`data` code-point list of the modelled `String`. -/
def truncLoop (max_length : Nat) : List RetrievedItem → Nat → List RetrievedItem
  | [], _ => []
  | c :: rest, current =>
    if max_length < current + c.text.length then
      if current = 0 then [{ c with text := String.mk (c.text.data.take max_length) }]
      else []
    else c :: truncLoop max_length rest (current + c.text.length)

/-- `ContextAssembler.truncate_to_fit`: stable-sort by score descending,
then greedily accept chunks while the running character total fits. -/
def ContextAssembler.truncate_to_fit (chunks : List RetrievedItem)
    (max_length : Nat) : List RetrievedItem :=
  truncLoop max_length (chunks.insertionSort (fun a b => b.score ≤ a.score)) 0

/-! ## Lemmas about whitespace splitting and joining -/

theorem String.ne_empty_of_data_ne_nil {s : String} (h : s.data ≠ []) : s ≠ "" := by
  intro he
  subst he
  exact h rfl

theorem pySplitWsAux_wordOk :
    ∀ (chars cur : List Char), (∀ c ∈ cur, ¬ c.isWhitespace) →
      ∀ w ∈ pySplitWsAux chars cur, wordOk w := by
  intro chars
  induction chars with
  | nil =>
    intro cur hcur w hw
    cases cur with
    | nil => simp [pySplitWsAux] at hw
    | cons c cs =>
      simp only [pySplitWsAux, List.mem_singleton] at hw
      subst hw
      refine ⟨String.ne_empty_of_data_ne_nil ?_, ?_⟩
      · simp
      · intro ch hch
        simp only [List.mem_reverse] at hch
        exact hcur ch hch
  | cons c rest ih =>
    intro cur hcur w hw
    simp only [pySplitWsAux] at hw
    by_cases hws : c.isWhitespace
    · simp only [hws, if_true] at hw
      cases cur with
      | nil =>
        simp only [List.isEmpty_nil, if_true] at hw
        exact ih [] (by simp) w hw
      | cons c0 cs0 =>
        simp only [List.isEmpty_cons, if_false, Bool.false_eq_true, List.mem_cons] at hw
        rcases hw with hw | hw
        · subst hw
          refine ⟨String.ne_empty_of_data_ne_nil ?_, ?_⟩
          · simp
          · intro ch hch
            simp only [List.mem_reverse] at hch
            exact hcur ch hch
        · exact ih [] (by simp) w hw
    · simp only [hws, if_false, Bool.false_eq_true] at hw
      refine ih (c :: cur) ?_ w hw
      intro ch hch
      rcases List.mem_cons.mp hch with h | h
      · subst h; exact hws
      · exact hcur ch h

theorem pyWords_wordOk (t : String) : ∀ w ∈ pyWords t, wordOk w :=
  pySplitWsAux_wordOk t.data [] (by simp)

theorem pyJoin_ne_empty : ∀ (w : String) (ws : List String), w ≠ "" →
    pyJoin (w :: ws) ≠ "" := by
  intro w ws hw
  cases ws with
  | nil => simpa [pyJoin] using hw
  | cons x xs =>
    show w ++ " " ++ pyJoin (x :: xs) ≠ ""
    apply String.ne_empty_of_data_ne_nil
    rw [String.data_append, String.data_append]
    intro hcontra
    rcases List.append_eq_nil.mp hcontra with ⟨h1, _⟩
    rcases List.append_eq_nil.mp h1 with ⟨_, h3⟩
    exact absurd h3 (by simp [String.data])

theorem pySplitWsAux_append :
    ∀ (l rest cur : List Char), (∀ c ∈ l, ¬ c.isWhitespace) →
      pySplitWsAux (l ++ rest) cur = pySplitWsAux rest (l.reverse ++ cur) := by
  intro l
  induction l with
  | nil => intro rest cur _; simp
  | cons c cs ih =>
    intro rest cur hl
    have hc : ¬ c.isWhitespace := hl c (List.mem_cons_self c cs)
    show pySplitWsAux (c :: (cs ++ rest)) cur = _
    simp only [pySplitWsAux, hc, if_false, Bool.false_eq_true]
    rw [ih rest (c :: cur) (fun x hx => hl x (List.mem_cons_of_mem c hx))]
    congr 1
    simp

theorem pySplitWsAux_nil_cons (a : Char) (as : List Char) :
    pySplitWsAux [] (a :: as) = [String.mk (a :: as).reverse] := rfl

theorem pySplitWsAux_ws_cons (rest cur : List Char) (hcur : cur ≠ []) :
    pySplitWsAux (' ' :: rest) cur
      = String.mk cur.reverse :: pySplitWsAux rest [] := by
  cases cur with
  | nil => exact absurd rfl hcur
  | cons a as =>
    show pySplitWsAux (' ' :: rest) (a :: as) = _
    simp [pySplitWsAux]

theorem pyWords_pyJoin : ∀ ws : List String, (∀ w ∈ ws, wordOk w) →
    pyWords (pyJoin ws) = ws := by
  intro ws
  induction ws with
  | nil => intro _; rfl
  | cons w tail ih =>
    intro hok
    have hw : wordOk w := hok w (List.mem_cons_self w tail)
    have hwdata : w.data ≠ [] := by
      intro hd
      exact hw.1 (by cases w with | mk d => cases hd; rfl)
    cases tail with
    | nil =>
      show pySplitWsAux (pyJoin [w]).data [] = [w]
      have h1 : pyJoin [w] = w := rfl
      rw [h1]
      have hsplit := pySplitWsAux_append w.data [] [] hw.2
      simp only [List.append_nil] at hsplit
      rw [hsplit]
      cases hd : w.data.reverse with
      | nil =>
        have : w.data = [] := by simpa using congrArg List.reverse hd
        exact absurd this hwdata
      | cons a as =>
        rw [pySplitWsAux_nil_cons, ← hd, List.reverse_reverse]
    | cons x xs =>
      show pySplitWsAux (pyJoin (w :: x :: xs)).data [] = w :: x :: xs
      have hdata : (pyJoin (w :: x :: xs)).data
          = w.data ++ (' ' :: (pyJoin (x :: xs)).data) := by
        show (w ++ " " ++ pyJoin (x :: xs)).data = _
        rw [String.data_append, String.data_append]
        rw [show (" " : String).data = [' '] from rfl]
        simp
      rw [hdata, pySplitWsAux_append w.data _ [] hw.2, List.append_nil,
        pySplitWsAux_ws_cons _ _ (by simpa using hwdata)]
      rw [List.reverse_reverse]
      have hmkw : String.mk w.data = w := rfl
      rw [hmkw]
      congr 1
      exact ih (fun v hv => hok v (List.mem_cons_of_mem w hv))

/-! ## Lemmas about the chunking loop -/

theorem chunkLoop_eq_last (c : TextChunker) (words : List String) (start : Nat)
    (h1 : start < words.length) (h2 : words.length ≤ start + c.chunk_size) :
    c.chunkLoop words start = [(words.drop start).take c.chunk_size] := by
  rw [TextChunker.chunkLoop]
  simp [h1, h2]

theorem chunkLoop_eq_mid (c : TextChunker) (words : List String) (start : Nat)
    (h1 : start < words.length) (h2 : ¬ words.length ≤ start + c.chunk_size) :
    c.chunkLoop words start = ((words.drop start).take c.chunk_size)
      :: c.chunkLoop words (start + (c.chunk_size - c.overlap)) := by
  rw [TextChunker.chunkLoop]
  simp [h1, h2]

theorem chunkLoop_eq_nil (c : TextChunker) (words : List String) (start : Nat)
    (h1 : ¬ start < words.length) : c.chunkLoop words start = [] := by
  rw [TextChunker.chunkLoop]
  simp [h1]

theorem chunkLoop_cons_head (c : TextChunker) (words : List String) (start : Nat)
    (h : start < words.length) :
    ∃ rest, c.chunkLoop words start = ((words.drop start).take c.chunk_size) :: rest := by
  by_cases h2 : words.length ≤ start + c.chunk_size
  · exact ⟨[], chunkLoop_eq_last c words start h h2⟩
  · exact ⟨_, chunkLoop_eq_mid c words start h h2⟩

theorem chunkLoop_mem (c : TextChunker) (words : List String) :
    ∀ start, ∀ wl ∈ c.chunkLoop words start, ∀ w ∈ wl, w ∈ words := by
  intro start
  induction start using TextChunker.chunkLoop.induct c words with
  | case1 start h1 h2 =>
    intro wl hwl w hw
    rw [chunkLoop_eq_last c words start h1 h2, List.mem_singleton] at hwl
    subst hwl
    exact ((List.take_sublist _ _).trans (List.drop_sublist _ _)).subset hw
  | case2 start h1 h2 ih =>
    intro wl hwl w hw
    rw [chunkLoop_eq_mid c words start h1 h2, List.mem_cons] at hwl
    rcases hwl with hwl | hwl
    · subst hwl
      exact ((List.take_sublist _ _).trans (List.drop_sublist _ _)).subset hw
    · exact ih wl hwl w hw
  | case3 start h1 =>
    intro wl hwl
    rw [chunkLoop_eq_nil c words start h1] at hwl
    exact absurd hwl (List.not_mem_nil wl)

theorem chunkLoop_shape (c : TextChunker) (words : List String) :
    ∀ start, ∀ wl ∈ c.chunkLoop words start,
      wl ≠ [] ∧ wl.length ≤ c.chunk_size := by
  have hcs : 1 ≤ c.chunk_size := by have := c.valid; omega
  intro start
  induction start using TextChunker.chunkLoop.induct c words with
  | case1 start h1 h2 =>
    intro wl hwl
    rw [chunkLoop_eq_last c words start h1 h2, List.mem_singleton] at hwl
    subst hwl
    constructor
    · rw [← List.length_pos]
      rw [List.length_take, List.length_drop]
      omega
    · rw [List.length_take, List.length_drop]
      omega
  | case2 start h1 h2 ih =>
    intro wl hwl
    rw [chunkLoop_eq_mid c words start h1 h2, List.mem_cons] at hwl
    rcases hwl with hwl | hwl
    · subst hwl
      constructor
      · rw [← List.length_pos]
        rw [List.length_take, List.length_drop]
        omega
      · rw [List.length_take, List.length_drop]
        omega
    · exact ih wl hwl
  | case3 start h1 =>
    intro wl hwl
    rw [chunkLoop_eq_nil c words start h1] at hwl
    exact absurd hwl (List.not_mem_nil wl)

theorem chunkLoop_chain (c : TextChunker) (words : List String) :
    ∀ start, List.Chain' (fun a b => a.length = c.chunk_size ∧
      a.drop (c.chunk_size - c.overlap) = b.take c.overlap)
      (c.chunkLoop words start) := by
  have hov : c.overlap < c.chunk_size := c.valid
  intro start
  induction start using TextChunker.chunkLoop.induct c words with
  | case1 start h1 h2 =>
    rw [chunkLoop_eq_last c words start h1 h2]
    exact List.chain'_singleton _
  | case2 start h1 h2 ih =>
    rw [chunkLoop_eq_mid c words start h1 h2]
    have hstart' : start + (c.chunk_size - c.overlap) < words.length := by omega
    obtain ⟨rest, hrest⟩ := chunkLoop_cons_head c words _ hstart'
    rw [hrest]
    rw [hrest] at ih
    refine List.Chain'.cons ⟨?_, ?_⟩ ih
    · rw [List.length_take, List.length_drop]
      omega
    · rw [List.drop_take, List.drop_drop, List.take_take]
      have e1 : c.chunk_size - (c.chunk_size - c.overlap) = c.overlap := by omega
      have e2 : min c.overlap c.chunk_size = c.overlap := by omega
      rw [e1, e2]
  | case3 start h1 =>
    rw [chunkLoop_eq_nil c words start h1]
    exact List.chain'_nil

theorem chunkLoop_flatten (c : TextChunker) (words : List String) :
    ∀ start, start < words.length →
      ((c.chunkLoop words start).map (List.drop c.overlap)).flatten
        = words.drop (start + c.overlap) := by
  have hov : c.overlap < c.chunk_size := c.valid
  intro start
  induction start using TextChunker.chunkLoop.induct c words with
  | case1 start h1 h2 =>
    intro _
    rw [chunkLoop_eq_last c words start h1 h2]
    have : (words.drop start).take c.chunk_size = words.drop start :=
      List.take_of_length_le (by rw [List.length_drop]; omega)
    simp [this, List.drop_drop]
  | case2 start h1 h2 ih =>
    intro _
    rw [chunkLoop_eq_mid c words start h1 h2]
    have hstart' : start + (c.chunk_size - c.overlap) < words.length := by omega
    rw [List.map_cons, List.flatten_cons, ih hstart']
    rw [List.drop_take, List.drop_drop]
    have e3 : start + (c.chunk_size - c.overlap) + c.overlap = start + c.chunk_size := by
      omega
    rw [e3]
    have e4 : words.drop (start + c.chunk_size)
        = (words.drop (start + c.overlap)).drop (c.chunk_size - c.overlap) := by
      rw [List.drop_drop]
      congr 1
      omega
    rw [e4, List.take_append_drop]
  | case3 start h1 =>
    intro h
    exact absurd h h1

theorem chunkLoop_deOverlap (c : TextChunker) (words : List String) (start : Nat)
    (h : start < words.length) :
    (c.chunkLoop words start).headD []
        ++ (((c.chunkLoop words start).tail).map (List.drop c.overlap)).flatten
      = words.drop start := by
  by_cases h2 : words.length ≤ start + c.chunk_size
  · rw [chunkLoop_eq_last c words start h h2]
    have : (words.drop start).take c.chunk_size = words.drop start :=
      List.take_of_length_le (by rw [List.length_drop]; omega)
    simp [this]
  · rw [chunkLoop_eq_mid c words start h h2]
    have hstart' : start + (c.chunk_size - c.overlap) < words.length := by
      have := c.valid; omega
    show (words.drop start).take c.chunk_size
        ++ ((c.chunkLoop words _).map (List.drop c.overlap)).flatten = words.drop start
    rw [chunkLoop_flatten c words _ hstart']
    have e3 : start + (c.chunk_size - c.overlap) + c.overlap = start + c.chunk_size := by
      have := c.valid; omega
    rw [e3]
    have e4 : words.drop (start + c.chunk_size)
        = (words.drop start).drop c.chunk_size := by
      rw [List.drop_drop]
    rw [e4, List.take_append_drop]

theorem map_pyWords_chunkLoop (c : TextChunker) (words : List String)
    (hwords : ∀ w ∈ words, wordOk w) (start : Nat) :
    ((c.chunkLoop words start).map pyJoin).map pyWords = c.chunkLoop words start := by
  rw [List.map_map]
  have : ∀ wl ∈ c.chunkLoop words start, (pyWords ∘ pyJoin) wl = id wl := by
    intro wl hwl
    exact pyWords_pyJoin wl
      (fun w hw => hwords w (chunkLoop_mem c words start wl hwl w hw))
  rw [List.map_congr_left this, List.map_id]

/-! ## Lemmas about search and retrieval -/

theorem pyGetElem_ok {α : Type} (l : List α) (d : α) (i : Int)
    (h0 : 0 ≤ i) (h1 : i.toNat < l.length) :
    pyGetElem l i = .ok (l.getD i.toNat d) := by
  unfold pyGetElem
  rw [dif_pos ⟨h0, h1⟩]
  rw [List.getD_eq_getElem l d h1, List.get_eq_getElem]

theorem mapM_pyGetElem {α : Type} (l : List α) (d : α) :
    ∀ valid : List Int, (∀ i ∈ valid, 0 ≤ i ∧ i.toNat < l.length) →
      valid.mapM (pyGetElem l) = .ok (valid.map fun i => l.getD i.toNat d) := by
  intro valid
  induction valid with
  | nil => intro _; rfl
  | cons i rest ih =>
    intro hb
    rw [List.mapM_cons]
    have hi := hb i (List.mem_cons_self i rest)
    rw [pyGetElem_ok l d i hi.1 hi.2, ih (fun j hj => hb j (List.mem_cons_of_mem i hj))]
    rfl

theorem wf_filter (r : FaissReply) (ntotal k : Nat) (hwf : r.wf ntotal k) :
    ∃ valid : List Int, r.indices.filter (fun i => i ≠ -1) = valid ∧
      valid.Nodup ∧ (∀ i ∈ valid, 0 ≤ i ∧ i.toNat < ntotal) ∧ valid.length ≤ k := by
  obtain ⟨hd, hi, valid, heq, hnd, hb⟩ := hwf
  refine ⟨valid, ?_, hnd, hb, ?_⟩
  · rw [heq, List.filter_append]
    have h1 : valid.filter (fun i => i ≠ -1) = valid := by
      rw [List.filter_eq_self]
      intro a ha
      have := (hb a ha).1
      simp only [ne_eq, decide_eq_true_eq]
      omega
    have h2 : (List.replicate (k - valid.length) (-1 : Int)).filter (fun i => i ≠ -1)
        = [] := by
      rw [List.filter_replicate]
      simp
    rw [h1, h2, List.append_nil]
  · have := congrArg List.length heq
    rw [List.length_append, List.length_replicate] at this
    omega

theorem nodup_bounded_length (l : List Int) (n : Nat) (hnd : l.Nodup)
    (hb : ∀ i ∈ l, 0 ≤ i ∧ i.toNat < n) : l.length ≤ n := by
  have hmapnd : (l.map Int.toNat).Nodup := by
    refine List.Nodup.map_on ?_ hnd
    intro x hx y hy hxy
    have hx0 := (hb x hx).1
    have hy0 := (hb y hy).1
    omega
  have hsub : (l.map Int.toNat).toFinset ⊆ Finset.range n := by
    intro m hm
    rw [List.mem_toFinset, List.mem_map] at hm
    obtain ⟨i, hi, rfl⟩ := hm
    rw [Finset.mem_range]
    exact (hb i hi).2
  have hcard := Finset.card_le_card hsub
  rw [Finset.card_range, List.toFinset_card_of_nodup hmapnd, List.length_map] at hcard
  exact hcard

theorem search_ok (s : VectorStore) (reply : FaissReply) (valid : List Int)
    (hfil : reply.indices.filter (fun i => i ≠ -1) = valid)
    (hb : ∀ i ∈ valid, 0 ≤ i ∧ i.toNat < s.chunks.length ∧ i.toNat < s.metadata.length) :
    s.search reply = .ok ⟨valid.map (fun i => s.chunks.getD i.toNat ""),
      reply.distances.take valid.length, valid,
      valid.map (fun i => s.metadata.getD i.toNat [])⟩ := by
  unfold VectorStore.search
  rw [hfil]
  unfold searchCore
  rw [mapM_pyGetElem s.chunks "" valid (fun i hi => ⟨(hb i hi).1, (hb i hi).2.1⟩)]
  rw [mapM_pyGetElem s.metadata [] valid (fun i hi => ⟨(hb i hi).1, (hb i hi).2.2⟩)]

theorem formatLoop_length_le (it : String) (thr : Rat) :
    ∀ (ts : List String) (ds : List Rat) (ms : List Metadata) (i : Nat),
      (formatLoop it thr i ts ds ms).length ≤ ts.length := by
  intro ts
  induction ts with
  | nil => intro ds ms i; simp [formatLoop]
  | cons t ts ih =>
    intro ds ms i
    cases ds with
    | nil => simp [formatLoop]
    | cons d ds =>
      cases ms with
      | nil => simp [formatLoop]
      | cons m ms =>
        rw [formatLoop]
        by_cases hc : it = "cosine" ∧ d < thr
        · rw [if_pos hc]
          exact (ih ds ms (i + 1)).trans (by simp)
        · rw [if_neg hc]
          simpa using ih ds ms (i + 1)

theorem formatLoop_all_dropped (it : String) (thr : Rat) (hit : it = "cosine") :
    ∀ (ts : List String) (ds : List Rat) (ms : List Metadata) (i : Nat),
      (∀ d ∈ ds, d < thr) → formatLoop it thr i ts ds ms = [] := by
  intro ts
  induction ts with
  | nil => intro ds ms i _; rfl
  | cons t ts ih =>
    intro ds ms i hds
    cases ds with
    | nil => rfl
    | cons d ds =>
      cases ms with
      | nil => rfl
      | cons m ms =>
        rw [formatLoop]
        rw [if_pos ⟨hit, hds d (List.mem_cons_self d ds)⟩]
        exact ih ds ms (i + 1) (fun x hx => hds x (List.mem_cons_of_mem d hx))

theorem searchItems_rank :
    ∀ (ts : List String) (ds : List Rat) (ms : List Metadata) (i : Nat),
      (searchItems i ts ds ms).map (fun x => x.rank)
        = List.range' i (searchItems i ts ds ms).length := by
  intro ts
  induction ts with
  | nil => intro ds ms i; rfl
  | cons t ts ih =>
    intro ds ms i
    cases ds with
    | nil => rfl
    | cons d ds =>
      cases ms with
      | nil => rfl
      | cons m ms =>
        rw [show searchItems i (t :: ts) (d :: ds) (m :: ms)
            = ⟨t, d, m, i⟩ :: searchItems (i + 1) ts ds ms from rfl]
        rw [List.map_cons, ih ds ms (i + 1), List.length_cons, List.range'_succ]

theorem formatLoop_take (it : String) (thr : Rat) :
    ∀ (ts : List String) (ds : List Rat) (ms : List Metadata) (i : Nat),
      (it = "cosine" → ds.Pairwise (fun a b => b ≤ a)) →
      ∃ m, formatLoop it thr i ts ds ms = (searchItems i ts ds ms).take m := by
  intro ts
  induction ts with
  | nil => intro ds ms i _; exact ⟨0, rfl⟩
  | cons t ts ih =>
    intro ds ms i hsort
    cases ds with
    | nil => exact ⟨0, rfl⟩
    | cons d ds =>
      cases ms with
      | nil => exact ⟨0, rfl⟩
      | cons m ms =>
        rw [formatLoop]
        by_cases hc : it = "cosine" ∧ d < thr
        · refine ⟨0, ?_⟩
          rw [if_pos hc, List.take_zero]
          refine formatLoop_all_dropped it thr hc.1 ts ds ms (i + 1) ?_
          intro x hx
          have hpw := hsort hc.1
          have := (List.pairwise_cons.mp hpw).1 x hx
          exact lt_of_le_of_lt this hc.2
        · obtain ⟨m', hm'⟩ := ih ds ms (i + 1)
            (fun hit => ((List.pairwise_cons.mp (hsort hit)).2))
          refine ⟨m' + 1, ?_⟩
          rw [if_neg hc, hm']
          rfl

theorem retrieve_eq (r : SemanticRetriever) (reply : FaissReply) (k : Nat)
    (thr : Option Rat) (hal : r.vector_store.aligned)
    (hwf : reply.wf r.vector_store.vectors.length k) :
    ∃ valid : List Int,
      reply.indices.filter (fun i => i ≠ -1) = valid ∧
      valid.length ≤ k ∧
      r.vector_store.search reply
        = .ok ⟨valid.map (fun i => r.vector_store.chunks.getD i.toNat ""),
            reply.distances.take valid.length, valid,
            valid.map (fun i => r.vector_store.metadata.getD i.toNat [])⟩ ∧
      r.retrieve reply thr
        = .ok (formatLoop r.vector_store.index_type
            (thr.getD r.similarity_threshold) 0
            (valid.map (fun i => r.vector_store.chunks.getD i.toNat ""))
            (reply.distances.take valid.length)
            (valid.map (fun i => r.vector_store.metadata.getD i.toNat []))) := by
  obtain ⟨hcl, hml⟩ := hal
  obtain ⟨valid, hfil, hnd, hb, hlen⟩ :=
    wf_filter reply r.vector_store.vectors.length k hwf
  have hb2 : ∀ i ∈ valid, 0 ≤ i ∧ i.toNat < r.vector_store.chunks.length
      ∧ i.toNat < r.vector_store.metadata.length := by
    intro i hi
    have := hb i hi
    exact ⟨this.1, by omega, by omega⟩
  have hsearch := search_ok r.vector_store reply valid hfil hb2
  refine ⟨valid, hfil, hlen, hsearch, ?_⟩
  unfold SemanticRetriever.retrieve
  rw [hsearch]
  have hdlen : (reply.distances.take valid.length).length = valid.length := by
    rw [List.length_take]
    have := hwf.1
    omega
  show (if (reply.distances.take valid.length).length
        < (valid.map (fun i => r.vector_store.chunks.getD i.toNat "")).length
      then (Except.error "IndexError: list index out of range"
        : Except String (List RetrievedItem))
      else .ok (formatLoop r.vector_store.index_type
        (thr.getD r.similarity_threshold) 0
        (valid.map (fun i => r.vector_store.chunks.getD i.toNat ""))
        (reply.distances.take valid.length)
        (valid.map (fun i => r.vector_store.metadata.getD i.toNat [])))) = _
  rw [if_neg (by rw [hdlen, List.length_map]; omega)]

/-! ## Lemmas about deduplication and truncation -/

theorem dedupLoop_eq :
    ∀ (l : List RetrievedItem) (k : Nat) (seen : List String)
      (acc : List RetrievedItem), acc.length < k →
      dedupLoop k seen acc l = acc ++ (dedupAll seen l).take (k - acc.length) := by
  intro l
  induction l with
  | nil => intro k seen acc _; simp [dedupLoop, dedupAll]
  | cons res rest ih =>
    intro k seen acc hlt
    rw [dedupLoop, dedupAll]
    by_cases hseen : res.text ∈ seen
    · rw [if_pos hseen]
      simp only [if_pos hseen]
      rw [if_neg (by omega)]
      exact ih k seen acc hlt
    · rw [if_neg hseen]
      simp only [if_neg hseen]
      obtain ⟨n, hn⟩ : ∃ n, k - acc.length = n + 1 := ⟨k - acc.length - 1, by omega⟩
      rw [hn, List.take_succ_cons]
      by_cases hfull : k ≤ (acc ++ [res]).length
      · rw [if_pos hfull]
        rw [List.length_append, List.length_singleton] at hfull
        have : n = 0 := by omega
        subst this
        simp
      · rw [if_neg hfull]
        rw [List.length_append, List.length_singleton] at hfull
        rw [ih k (res.text :: seen) (acc ++ [res]) (by rw [List.length_append]; simp; omega)]
        rw [List.length_append, List.length_singleton]
        have : k - (acc.length + 1) = n := by omega
        rw [this, List.append_assoc]
        rfl

theorem dedupAll_spec :
    ∀ (l : List RetrievedItem) (seen : List String),
      ((dedupAll seen l).map (fun x => x.text)).Nodup ∧
      ∀ x ∈ dedupAll seen l, x.text ∉ seen := by
  intro l
  induction l with
  | nil => intro seen; exact ⟨List.nodup_nil, by intro x hx; cases hx⟩
  | cons res rest ih =>
    intro seen
    rw [dedupAll]
    by_cases hseen : res.text ∈ seen
    · rw [if_pos hseen]
      exact ih seen
    · rw [if_neg hseen]
      obtain ⟨ihnd, ihmem⟩ := ih (res.text :: seen)
      constructor
      · rw [List.map_cons, List.nodup_cons]
        refine ⟨?_, ihnd⟩
        intro hmem
        rw [List.mem_map] at hmem
        obtain ⟨x, hx, hxt⟩ := hmem
        exact (ihmem x hx) (by rw [hxt]; exact List.mem_cons_self _ _)
      · intro x hx
        rcases List.mem_cons.mp hx with hx | hx
        · subst hx; exact hseen
        · intro hxs
          exact (ihmem x hx) (List.mem_cons_of_mem _ hxs)

theorem dedupAll_sublist :
    ∀ (l : List RetrievedItem) (seen : List String), (dedupAll seen l).Sublist l := by
  intro l
  induction l with
  | nil => intro seen; simp [dedupAll]
  | cons res rest ih =>
    intro seen
    rw [dedupAll]
    by_cases hseen : res.text ∈ seen
    · rw [if_pos hseen]
      exact (ih seen).cons res
    · rw [if_neg hseen]
      exact (ih (res.text :: seen)).cons₂ res

theorem truncLoop_sum_le (max_length : Nat) :
    ∀ (l : List RetrievedItem) (cur : Nat), cur ≤ max_length →
      cur + ((truncLoop max_length l cur).map (fun c => c.text.length)).sum
        ≤ max_length := by
  intro l
  induction l with
  | nil => intro cur h; simpa [truncLoop]
  | cons c rest ih =>
    intro cur h
    rw [truncLoop]
    by_cases h1 : max_length < cur + c.text.length
    · rw [if_pos h1]
      by_cases h2 : cur = 0
      · rw [if_pos h2]
        subst h2
        show 0 + ((String.mk (c.text.data.take max_length)).length + 0) ≤ max_length
        have : (String.mk (c.text.data.take max_length)).length
            = (c.text.data.take max_length).length := rfl
        rw [this, List.length_take]
        omega
      · rw [if_neg h2]
        simpa using h
    · rw [if_neg h1]
      have := ih (cur + c.text.length) (by omega)
      simp only [List.map_cons, List.sum_cons]
      omega

theorem truncLoop_ne_nil (max_length : Nat) (c : RetrievedItem)
    (rest : List RetrievedItem) : truncLoop max_length (c :: rest) 0 ≠ [] := by
  rw [truncLoop]
  by_cases h1 : max_length < 0 + c.text.length
  · rw [if_pos h1, if_pos rfl]
    simp
  · rw [if_neg h1]
    simp

theorem truncLoop_score_mem (max_length : Nat) :
    ∀ (l : List RetrievedItem) (cur : Nat) (x : RetrievedItem),
      x ∈ truncLoop max_length l cur → x.score ∈ l.map (fun c => c.score) := by
  intro l
  induction l with
  | nil => intro cur x hx; simp [truncLoop] at hx
  | cons c rest ih =>
    intro cur x hx
    rw [truncLoop] at hx
    by_cases h1 : max_length < cur + c.text.length
    · rw [if_pos h1] at hx
      by_cases h2 : cur = 0
      · rw [if_pos h2, List.mem_singleton] at hx
        subst hx
        simp
      · rw [if_neg h2] at hx
        cases hx
    · rw [if_neg h1] at hx
      rcases List.mem_cons.mp hx with hx | hx
      · subst hx; simp
      · exact List.mem_cons_of_mem _ (ih _ x hx)

theorem truncLoop_pairwise (max_length : Nat) :
    ∀ (l : List RetrievedItem) (cur : Nat),
      l.Pairwise (fun a b => b.score ≤ a.score) →
      (truncLoop max_length l cur).Pairwise (fun a b => b.score ≤ a.score) := by
  intro l
  induction l with
  | nil => intro cur _; simp [truncLoop]
  | cons c rest ih =>
    intro cur hpw
    obtain ⟨hhead, htail⟩ := List.pairwise_cons.mp hpw
    rw [truncLoop]
    by_cases h1 : max_length < cur + c.text.length
    · rw [if_pos h1]
      by_cases h2 : cur = 0
      · rw [if_pos h2]
        simp
      · rw [if_neg h2]
        simp
    · rw [if_neg h1]
      rw [List.pairwise_cons]
      refine ⟨?_, ih _ htail⟩
      intro b hb
      have := truncLoop_score_mem max_length rest _ b hb
      rw [List.mem_map] at this
      obtain ⟨y, hy, hys⟩ := this
      calc b.score = y.score := hys.symm
        _ ≤ c.score := hhead y hy

/-! ## Save/load -/

/-- Saving a store and loading the directory into any store reconstructs
the saved store exactly (vectors, chunks, metadata, dimension, metric). -/
theorem vectorStore_save_load_roundtrip (s s0 : VectorStore) :
    s0.load s.save = s := rfl

/-- Claim C1 (code_bug evidence).  The spec requires that loading an
on-disk state whose dimension or metric is incompatible with the loading
index be detected and surfaced.  `VectorStore.load` performs no check
(despite its own comment "Load config first to check compatibility") and
is infallible: at this concrete mismatching input, a dimension-384 L2
store that loads a directory saved by a dimension-2 cosine store is
silently re-configured to dimension 2 and metric cosine, with no error
surfaced.  The save/load round-trip half of the claim does hold
(`vectorStore_save_load_roundtrip`). -/
theorem claim_C1_load_silently_coerces :
    (VectorStore.load ⟨384, "L2", [], [], []⟩
        (VectorStore.save ⟨2, "cosine", [[1, 2]], ["a"], [[]]⟩)).dimension = 2 ∧
    (VectorStore.load ⟨384, "L2", [], [], []⟩
        (VectorStore.save ⟨2, "cosine", [[1, 2]], ["a"], [[]]⟩)).index_type
      = "cosine" ∧
    VectorStore.load ⟨384, "L2", [], [], []⟩
        (VectorStore.save ⟨2, "cosine", [[1, 2]], ["a"], [[]]⟩)
      = ⟨2, "cosine", [[1, 2]], ["a"], [[]]⟩ :=
  ⟨rfl, rfl, rfl⟩

/-! ## Chunking claims -/

/-- Claim C2.  For every chunker (whose construction enforces
`overlap < chunk_size`) and every text with more than `chunk_size`
words, `chunk_by_words` returns the sliding windows of the loop
advancing by `chunk_size - overlap` words: every pair of consecutive
chunks consists of a full `chunk_size`-word window whose last `overlap`
words are exactly the next chunk's first `overlap` words, and the first
chunk followed by each later chunk minus its overlapped `overlap`-word
prefix reconstructs the whitespace-normalized word sequence of the
input. -/
theorem claim_C2_sliding_windows (c : TextChunker) (text : String)
    (hN : c.chunk_size < (pyWords text).length) :
    (c.chunk_by_words text).map pyWords = c.chunkLoop (pyWords text) 0 ∧
    List.Chain' (fun a b => a.length = c.chunk_size ∧
        a.drop (c.chunk_size - c.overlap) = b.take c.overlap)
      ((c.chunk_by_words text).map pyWords) ∧
    ((c.chunk_by_words text).map pyWords).headD []
        ++ (((c.chunk_by_words text).map pyWords).tail.map
            (List.drop c.overlap)).flatten
      = pyWords text := by
  have hne : ¬ ((pyWords text).isEmpty = true) := by
    rw [List.isEmpty_iff]
    intro h
    rw [h] at hN
    simp at hN
  have hgt : ¬ ((pyWords text).length ≤ c.chunk_size) := by omega
  have hout : c.chunk_by_words text = (c.chunkLoop (pyWords text) 0).map pyJoin := by
    simp only [TextChunker.chunk_by_words]
    rw [if_neg hne, if_neg hgt]
  have hmap : (c.chunk_by_words text).map pyWords = c.chunkLoop (pyWords text) 0 := by
    rw [hout]
    exact map_pyWords_chunkLoop c _ (pyWords_wordOk text) 0
  refine ⟨hmap, ?_, ?_⟩
  · rw [hmap]
    exact chunkLoop_chain c _ 0
  · rw [hmap]
    have := chunkLoop_deOverlap c (pyWords text) 0 (by omega)
    simpa using this

/-- Witness for C2 at a concrete input: chunker (3, 1) on a five-word
text. -/
theorem claim_C2_witness :
    ((⟨3, 1, by omega⟩ : TextChunker).chunk_by_words "a b c d e").map pyWords
        = (⟨3, 1, by omega⟩ : TextChunker).chunkLoop (pyWords "a b c d e") 0 ∧
    List.Chain' (fun a b => a.length = 3 ∧ a.drop (3 - 1) = b.take 1)
      (((⟨3, 1, by omega⟩ : TextChunker).chunk_by_words "a b c d e").map pyWords) ∧
    (((⟨3, 1, by omega⟩ : TextChunker).chunk_by_words "a b c d e").map pyWords).headD []
        ++ ((((⟨3, 1, by omega⟩ : TextChunker).chunk_by_words "a b c d e").map
            pyWords).tail.map (List.drop 1)).flatten
      = pyWords "a b c d e" :=
  claim_C2_sliding_windows ⟨3, 1, by omega⟩ "a b c d e" (by decide)

/-- Claim C10.  Every chunk returned by `chunk_by_words` is a non-empty
string holding at least one and at most `chunk_size` whitespace-separated
words. -/
theorem claim_C10_chunk_bounds (c : TextChunker) (text : String) :
    ∀ s ∈ c.chunk_by_words text,
      s ≠ "" ∧ pyWords s ≠ [] ∧ (pyWords s).length ≤ c.chunk_size := by
  intro s hs
  simp only [TextChunker.chunk_by_words] at hs
  by_cases h1 : ((pyWords text).isEmpty = true)
  · rw [if_pos h1] at hs
    cases hs
  · rw [if_neg h1] at hs
    by_cases h2 : (pyWords text).length ≤ c.chunk_size
    · rw [if_pos h2, List.mem_singleton] at hs
      subst hs
      rw [List.isEmpty_iff] at h1
      cases hw : pyWords text with
      | nil => exact absurd hw h1
      | cons w tail =>
        rw [hw] at h2
        have hok : ∀ v ∈ (w :: tail), wordOk v := by
          rw [← hw]
          exact pyWords_wordOk text
        have hround : pyWords (pyJoin (w :: tail)) = w :: tail :=
          pyWords_pyJoin _ hok
        refine ⟨pyJoin_ne_empty w tail (hok w (List.mem_cons_self w tail)).1, ?_, ?_⟩
        · rw [hround]
          simp
        · rw [hround]
          exact h2
    · rw [if_neg h2] at hs
      obtain ⟨wl, hwl, rfl⟩ := List.mem_map.mp hs
      obtain ⟨hne, hlen⟩ := chunkLoop_shape c (pyWords text) 0 wl hwl
      have hok : ∀ w ∈ wl, wordOk w := fun w hw =>
        pyWords_wordOk text w (chunkLoop_mem c (pyWords text) 0 wl hwl w hw)
      have hround : pyWords (pyJoin wl) = wl := pyWords_pyJoin wl hok
      cases hwlc : wl with
      | nil => exact absurd hwlc hne
      | cons w tail =>
        rw [hwlc] at hround hlen hok
        refine ⟨pyJoin_ne_empty w tail (hok w (List.mem_cons_self w tail)).1, ?_, ?_⟩
        · rw [hround]
          simp
        · rw [hround]
          exact hlen

/-- Witness for C10 at a concrete input: chunker (3, 1) on a two-word
text (single-chunk branch). -/
theorem claim_C10_witness :
    "a b" ≠ "" ∧ pyWords "a b" ≠ [] ∧ (pyWords "a b").length ≤ 3 :=
  claim_C10_chunk_bounds ⟨3, 1, by omega⟩ "a b" "a b" (by decide)

/-! ## Vector store claims -/

/-- Claim C3.  Retrieving against an index with zero stored chunks (and
hence zero stored vectors) returns the empty list and raises no error,
for every query (i.e. every FAISS reply that satisfies the contract for
an empty index) and every threshold. -/
theorem claim_C3_empty_index (r : SemanticRetriever) (reply : FaissReply)
    (k : Nat) (thr : Option Rat)
    (hchunks : r.vector_store.chunks = [])
    (hvecs : r.vector_store.vectors = [])
    (hwf : reply.wf r.vector_store.vectors.length k) :
    r.retrieve reply thr = .ok [] := by
  obtain ⟨valid, hfil, hnd, hb, hlen⟩ :=
    wf_filter reply r.vector_store.vectors.length k hwf
  have hv : valid = [] := by
    cases valid with
    | nil => rfl
    | cons i rest =>
      have := hb i (List.mem_cons_self i rest)
      rw [hvecs] at this
      exact absurd this.2 (by simp)
  subst hv
  have hsearch := search_ok r.vector_store reply [] hfil (by intro i hi; cases hi)
  unfold SemanticRetriever.retrieve
  rw [hsearch]
  rfl

/-- Witness for C3: an empty L2 store, a contract-conforming reply for
five requested neighbours (all sentinel `-1`), default threshold. -/
theorem claim_C3_witness :
    SemanticRetriever.retrieve ⟨⟨384, "L2", [], [], []⟩, 3, 0⟩
      ⟨[0, 0, 0, 0, 0], [-1, -1, -1, -1, -1]⟩ none = .ok [] :=
  claim_C3_empty_index ⟨⟨384, "L2", [], [], []⟩, 3, 0⟩
    ⟨[0, 0, 0, 0, 0], [-1, -1, -1, -1, -1]⟩ 5 none rfl rfl
    ⟨rfl, rfl, [], by decide, List.nodup_nil, by intro i hi; cases hi⟩

/-- Claim C4.  For every aligned store and every contract-conforming
FAISS reply, `search` succeeds, returns at most as many results as there
are stored chunks, never exposes the sentinel index `-1`, keeps the four
result rows parallel, and every returned index is in bounds with the
chunk and metadata entries read off the stored lists at that index. -/
theorem claim_C4_search_safe (s : VectorStore) (reply : FaissReply) (k : Nat)
    (hal : s.aligned) (hwf : reply.wf s.vectors.length k) :
    ∃ out, s.search reply = .ok out ∧
      out.chunks.length ≤ s.chunks.length ∧
      (-1) ∉ out.indices ∧
      out.indices.length = out.chunks.length ∧
      out.metadata.length = out.chunks.length ∧
      out.distances.length = out.chunks.length ∧
      (∀ i ∈ out.indices, 0 ≤ i ∧ i.toNat < s.chunks.length) ∧
      out.chunks = out.indices.map (fun i => s.chunks.getD i.toNat "") ∧
      out.metadata = out.indices.map (fun i => s.metadata.getD i.toNat []) := by
  obtain ⟨hcl, hml⟩ := hal
  obtain ⟨valid, hfil, hnd, hb, hlen⟩ := wf_filter reply s.vectors.length k hwf
  have hb' : ∀ i ∈ valid, 0 ≤ i ∧ i.toNat < s.chunks.length := by
    intro i hi
    have := hb i hi
    exact ⟨this.1, by omega⟩
  refine ⟨_, search_ok s reply valid hfil
    (fun i hi => ⟨(hb' i hi).1, (hb' i hi).2, by have := hb' i hi; omega⟩),
    ?_, ?_, ?_, ?_, ?_, hb', rfl, rfl⟩
  · rw [List.length_map]
    exact nodup_bounded_length valid s.chunks.length hnd hb'
  · intro hmem
    have := (hb' _ hmem).1
    omega
  · rw [List.length_map]
  · rw [List.length_map, List.length_map]
  · rw [List.length_map, List.length_take]
    have := hwf.1
    omega

/-- Witness for C4: a one-chunk L2 store and a reply for three
requested neighbours, two of them sentinel `-1`. -/
theorem claim_C4_witness :
    ∃ out, VectorStore.search ⟨2, "L2", [[1, 2]], ["a"], [[]]⟩ ⟨[0, 7, 9], [0, -1, -1]⟩
        = .ok out ∧
      out.chunks.length ≤ (["a"] : List String).length ∧
      (-1) ∉ out.indices ∧
      out.indices.length = out.chunks.length ∧
      out.metadata.length = out.chunks.length ∧
      out.distances.length = out.chunks.length ∧
      (∀ i ∈ out.indices, 0 ≤ i ∧ i.toNat < (["a"] : List String).length) ∧
      out.chunks = out.indices.map (fun i => (["a"] : List String).getD i.toNat "") ∧
      out.metadata = out.indices.map
        (fun i => ([[]] : List Metadata).getD i.toNat []) :=
  claim_C4_search_safe ⟨2, "L2", [[1, 2]], ["a"], [[]]⟩ ⟨[0, 7, 9], [0, -1, -1]⟩ 3
    ⟨rfl, rfl⟩ ⟨rfl, rfl, [0], by decide, by decide, by decide⟩

/-- Claim C5 counterexample.  The claim states that `add` raises a
`ValidationError` whenever metadata is supplied and its length differs
from the number of texts.  Supplying the empty metadata list with one
text (lengths 0 and 1) contradicts it: Python's `if metadata and ...`
treats the empty list as falsy, so no error is raised and the chunk gets
an empty metadata record. -/
theorem claim_C5_counterexample :
    VectorStore.add ⟨2, "L2", [], [], []⟩ [[1, 2]] ["a"] (some [])
      = .ok ⟨2, "L2", [[1, 2]], ["a"], [[]]⟩ := rfl

/-- Claim C5 (amended).  `add` raises a `ValidationError` whenever
`len(vectors) != len(texts)`; when a non-empty metadata sequence is
supplied it raises whenever its length differs from `len(texts)` and is
appended otherwise; when metadata is absent or empty, the index stores
one empty metadata record per added chunk, never a null entry. -/
theorem claim_C5_amended (s : VectorStore) (e : List (List Rat))
    (c : List String) (m : Option (List Metadata)) :
    (e.length ≠ c.length →
      s.add e c m = .error "Number of embeddings must match number of chunks") ∧
    (e.length = c.length → pyTruthy m = true → (m.getD []).length ≠ c.length →
      s.add e c m = .error "Number of metadata items must match number of chunks") ∧
    (e.length = c.length → pyTruthy m = false →
      s.add e c m = .ok { s with
        vectors := s.vectors ++ e,
        chunks := s.chunks ++ c,
        metadata := s.metadata ++ c.map fun _ => ([] : Metadata) }) ∧
    (e.length = c.length → pyTruthy m = true → (m.getD []).length = c.length →
      s.add e c m = .ok { s with
        vectors := s.vectors ++ e,
        chunks := s.chunks ++ c,
        metadata := s.metadata ++ m.getD [] }) := by
  refine ⟨?_, ?_, ?_, ?_⟩
  · intro h1
    rw [VectorStore.add, if_pos h1]
  · intro h1 h2 h3
    rw [VectorStore.add, if_neg (fun hh => hh h1), if_pos ⟨h2, h3⟩]
  · intro h1 h2
    rw [VectorStore.add, if_neg (fun hh => hh h1),
      if_neg (fun hh => by rw [h2] at hh; exact absurd hh.1 (by simp))]
    rw [if_neg (by rw [h2]; simp)]
  · intro h1 h2 h3
    rw [VectorStore.add, if_neg (fun hh => hh h1),
      if_neg (fun hh => hh.2 h3), if_pos h2]

/-- Witness for the amended C5: a length mismatch between one embedding
row and zero texts raises the first validation error. -/
theorem claim_C5_witness :
    ([[1, 2]] : List (List Rat)).length ≠ ([] : List String).length ∧
    VectorStore.add ⟨2, "L2", [], [], []⟩ [[1, 2]] [] none
      = .error "Number of embeddings must match number of chunks" :=
  ⟨by decide, (claim_C5_amended ⟨2, "L2", [], [], []⟩ [[1, 2]] [] none).1 (by decide)⟩

/-- Claim C9.  The parallel-alignment invariant
`len(chunks) == len(metadata) ==` number of stored vectors holds after
construction and is preserved by `add` and by `clear` (when they raise,
the state is returned unchanged in this embedding, so preservation is
immediate). -/
theorem claim_C9_alignment :
    (∀ dim it s, mkVectorStore dim it = .ok s → s.aligned) ∧
    (∀ (s : VectorStore) e c m s', s.aligned → s.add e c m = .ok s' → s'.aligned) ∧
    (∀ (s s' : VectorStore), s.aligned → s.clear = .ok s' → s'.aligned) := by
  refine ⟨?_, ?_, ?_⟩
  · intro dim it s h
    unfold mkVectorStore at h
    by_cases hc : it = "L2" ∨ it = "cosine"
    · rw [if_pos hc] at h
      injection h with h2
      subst h2
      exact ⟨rfl, rfl⟩
    · rw [if_neg hc] at h
      cases h
  · intro s e c m s' hal hadd
    unfold VectorStore.add at hadd
    by_cases h1 : e.length ≠ c.length
    · rw [if_pos h1] at hadd
      cases hadd
    · rw [if_neg h1] at hadd
      by_cases h2 : pyTruthy m ∧ (m.getD []).length ≠ c.length
      · rw [if_pos h2] at hadd
        cases hadd
      · rw [if_neg h2] at hadd
        injection hadd with h3
        subst h3
        obtain ⟨a1, a2⟩ := hal
        by_cases ht : pyTruthy m
        · have hm : (m.getD []).length = c.length := by
            by_contra hne
            exact h2 ⟨ht, hne⟩
          refine ⟨?_, ?_⟩ <;>
            simp only [List.length_append, if_pos ht, List.length_map, hm] <;>
            omega
        · refine ⟨?_, ?_⟩ <;>
            simp only [List.length_append, if_neg ht, List.length_map] <;>
            omega
  · intro s s' hal hclear
    unfold VectorStore.clear at hclear
    by_cases hc : s.index_type = "L2" ∨ s.index_type = "cosine"
    · rw [if_pos hc] at hclear
      injection hclear with h2
      subst h2
      exact ⟨rfl, rfl⟩
    · rw [if_neg hc] at hclear
      cases hclear

/-- Witness for C9: adding one chunk without metadata to a freshly
constructed empty store keeps the three collections aligned. -/
theorem claim_C9_witness :
    VectorStore.aligned ⟨2, "L2", [[1, 2]], ["a"], [[]]⟩ :=
  claim_C9_alignment.2.1 ⟨2, "L2", [], [], []⟩ [[1, 2]] ["a"] none
    ⟨2, "L2", [[1, 2]], ["a"], [[]]⟩ ⟨rfl, rfl⟩ rfl

/-! ## Context assembly claim -/

/-- Claim C7.  `truncate_to_fit` sorts by score descending and greedily
accepts chunks while the running character total stays within the
budget: the total text length of the result never exceeds `max_length`;
the result is non-empty whenever at least one candidate exists and the
budget is positive; if the highest-scored candidate alone exceeds the
budget the result is exactly that chunk with its text cut to the
`max_length`-code-point prefix; and the result is ordered by
non-increasing score. -/
theorem claim_C7_truncate (chunks : List RetrievedItem) (max_length : Nat) :
    ((ContextAssembler.truncate_to_fit chunks max_length).map
        (fun c => c.text.length)).sum ≤ max_length ∧
    (chunks ≠ [] → 0 < max_length →
      ContextAssembler.truncate_to_fit chunks max_length ≠ []) ∧
    (∀ c rest, chunks.insertionSort (fun a b => b.score ≤ a.score) = c :: rest →
      max_length < c.text.length →
      ContextAssembler.truncate_to_fit chunks max_length
        = [{ c with text := String.mk (c.text.data.take max_length) }]) ∧
    (ContextAssembler.truncate_to_fit chunks max_length).Pairwise
      (fun a b => b.score ≤ a.score) := by
  have hsorted : (chunks.insertionSort (fun a b => b.score ≤ a.score)).Pairwise
      (fun a b => b.score ≤ a.score) := by
    haveI : IsTotal RetrievedItem (fun a b => b.score ≤ a.score) :=
      ⟨fun a b => le_total b.score a.score⟩
    haveI : IsTrans RetrievedItem (fun a b => b.score ≤ a.score) :=
      ⟨fun a b c hab hbc => le_trans hbc hab⟩
    exact List.sorted_insertionSort _ chunks
  refine ⟨?_, ?_, ?_, ?_⟩
  · have := truncLoop_sum_le max_length
      (chunks.insertionSort (fun a b => b.score ≤ a.score)) 0 (Nat.zero_le _)
    simpa [ContextAssembler.truncate_to_fit] using this
  · intro hne _
    unfold ContextAssembler.truncate_to_fit
    cases hcase : chunks.insertionSort (fun a b => b.score ≤ a.score) with
    | nil =>
      exfalso
      have hperm := List.perm_insertionSort (fun a b => b.score ≤ a.score) chunks
      rw [hcase] at hperm
      exact hne (List.Perm.nil_eq hperm).symm
    | cons c rest => exact truncLoop_ne_nil max_length c rest
  · intro c rest heq hlen
    unfold ContextAssembler.truncate_to_fit
    rw [heq, truncLoop, if_pos (by omega), if_pos rfl]
  · unfold ContextAssembler.truncate_to_fit
    exact truncLoop_pairwise max_length _ 0 hsorted

/-- Witness for C7: budget 3, two chunks ("ab" scored 2, "cdef" scored
1); the result keeps the total within the budget and is non-empty. -/
theorem claim_C7_witness :
    ((ContextAssembler.truncate_to_fit
        [⟨"ab", 2, [], 0⟩, ⟨"cdef", 1, [], 1⟩] 3).map
      (fun c => c.text.length)).sum ≤ 3 ∧
    ContextAssembler.truncate_to_fit [⟨"ab", 2, [], 0⟩, ⟨"cdef", 1, [], 1⟩] 3 ≠ [] :=
  ⟨(claim_C7_truncate [⟨"ab", 2, [], 0⟩, ⟨"cdef", 1, [], 1⟩] 3).1,
   (claim_C7_truncate [⟨"ab", 2, [], 0⟩, ⟨"cdef", 1, [], 1⟩] 3).2.1
     (by decide) (by decide)⟩

/-! ## Retrieval ordering claim -/

/-- Claim C8.  For every retrieve call on an aligned store with a
contract-conforming FAISS reply whose distance row is sorted in the
metric's native order (descending similarity under cosine; nothing is
required under L2, where no filtering happens), the returned items are a
prefix of the search result in native rank order and their `rank` fields
are exactly 0, 1, 2, … consecutively. -/
theorem claim_C8_rank_order (r : SemanticRetriever) (reply : FaissReply)
    (k : Nat) (thr : Option Rat) (hal : r.vector_store.aligned)
    (hwf : reply.wf r.vector_store.vectors.length k)
    (hsorted : r.vector_store.index_type = "cosine" →
      reply.distances.Pairwise (fun a b => b ≤ a)) :
    ∃ results out, r.vector_store.search reply = .ok results ∧
      r.retrieve reply thr = .ok out ∧
      out.map (fun x => x.rank) = List.range out.length ∧
      out = (searchItems 0 results.chunks results.distances results.metadata).take
        out.length := by
  obtain ⟨valid, hfil, hlen, hsearch, hret⟩ := retrieve_eq r reply k thr hal hwf
  obtain ⟨m, hm⟩ := formatLoop_take r.vector_store.index_type
    (thr.getD r.similarity_threshold)
    (valid.map (fun i => r.vector_store.chunks.getD i.toNat ""))
    (reply.distances.take valid.length)
    (valid.map (fun i => r.vector_store.metadata.getD i.toNat [])) 0
    (fun hit => List.Pairwise.sublist (List.take_sublist _ _) (hsorted hit))
  refine ⟨_, _, hsearch, hret, ?_, ?_⟩
  · rw [hm, List.length_take, List.map_take, searchItems_rank,
      ← List.range_eq_range', List.take_range]
  · rw [hm, List.length_take]
    by_cases hmn : m ≤ (searchItems 0
        (valid.map (fun i => r.vector_store.chunks.getD i.toNat ""))
        (reply.distances.take valid.length)
        (valid.map (fun i => r.vector_store.metadata.getD i.toNat []))).length
    · rw [min_eq_left hmn]
    · rw [min_eq_right (le_of_not_le hmn)]
      rw [List.take_of_length_le (le_of_not_le hmn), List.take_length]

/-- Witness for C8: a cosine store with two chunks, a sorted reply, and
threshold 5 (which filters the second item). -/
theorem claim_C8_witness :
    ∃ results out,
      VectorStore.search ⟨2, "cosine", [[1, 0], [0, 1]], ["a", "b"], [[], []]⟩
          ⟨[9, 3], [0, 1]⟩ = .ok results ∧
      SemanticRetriever.retrieve
          ⟨⟨2, "cosine", [[1, 0], [0, 1]], ["a", "b"], [[], []]⟩, 5, 0⟩
          ⟨[9, 3], [0, 1]⟩ (some 5) = .ok out ∧
      out.map (fun x => x.rank) = List.range out.length ∧
      out = (searchItems 0 results.chunks results.distances results.metadata).take
        out.length :=
  claim_C8_rank_order
    ⟨⟨2, "cosine", [[1, 0], [0, 1]], ["a", "b"], [[], []]⟩, 5, 0⟩
    ⟨[9, 3], [0, 1]⟩ 2 (some 5) ⟨rfl, rfl⟩
    ⟨rfl, rfl, [0, 1], by decide, by decide, by decide⟩
    (fun _ => by decide)

/-! ## Multi-query claim -/

theorem mqRel_total (b : Bool) : IsTotal RetrievedItem (mqRel b) := by
  refine ⟨fun x y => ?_⟩
  unfold mqRel
  cases b
  · simp only [Bool.false_eq_true, if_false]
    exact le_total x.score y.score
  · simp only [if_true]
    exact le_total y.score x.score

theorem mqRel_trans (b : Bool) : IsTrans RetrievedItem (mqRel b) := by
  refine ⟨fun x y z hxy hyz => ?_⟩
  unfold mqRel at hxy hyz ⊢
  cases b
  · simp only [Bool.false_eq_true, if_false] at hxy hyz ⊢
    exact le_trans hxy hyz
  · simp only [if_true] at hxy hyz ⊢
    exact le_trans hyz hxy

theorem retrieve_ok_len (r : SemanticRetriever) (rep : FaissReply) (k : Nat)
    (hal : r.vector_store.aligned)
    (hwf : rep.wf r.vector_store.vectors.length k) :
    ∃ out, r.retrieve rep none = .ok out ∧ out.length ≤ k := by
  obtain ⟨valid, hfil, hlen, hsearch, hret⟩ := retrieve_eq r rep k none hal hwf
  refine ⟨_, hret, ?_⟩
  have h1 := formatLoop_length_le r.vector_store.index_type
    (Option.getD none r.similarity_threshold)
    (valid.map (fun i => r.vector_store.chunks.getD i.toNat ""))
    (rep.distances.take valid.length)
    (valid.map (fun i => r.vector_store.metadata.getD i.toNat [])) 0
  rw [List.length_map] at h1
  omega

theorem mapM_retrieve_ok (r : SemanticRetriever) (k : Nat)
    (hal : r.vector_store.aligned) :
    ∀ replies : List FaissReply,
      (∀ rep ∈ replies, rep.wf r.vector_store.vectors.length k) →
      ∃ lists, replies.mapM (fun rep => r.retrieve rep none) = .ok lists ∧
        ∀ l ∈ lists, l.length ≤ k := by
  intro replies
  induction replies with
  | nil => intro _; exact ⟨[], rfl, fun l hl => absurd hl (List.not_mem_nil l)⟩
  | cons rep rest ih =>
    intro hwf
    obtain ⟨out, hout, houtlen⟩ :=
      retrieve_ok_len r rep k hal (hwf rep (List.mem_cons_self rep rest))
    obtain ⟨lists, hl1, hl2⟩ := ih (fun rp hrp => hwf rp (List.mem_cons_of_mem rep hrp))
    refine ⟨out :: lists, ?_, ?_⟩
    · rw [List.mapM_cons, hout, hl1]
      rfl
    · intro l hl
      rcases List.mem_cons.mp hl with hl | hl
      · subst hl
        exact houtlen
      · exact hl2 l hl

/-- Claim C6.  `retrieve_multi_query` retrieves per query, concatenates,
sorts by score (descending under cosine, ascending under L2),
deduplicates by exact text with the first occurrence winning, and
truncates to `k`: the output equals the first-wins deduplication of the
sorted concatenation cut to `k` items, has at most `k` items, pairwise
distinct texts, and is ordered in the metric's better-first direction. -/
theorem claim_C6_multi_query (r : SemanticRetriever) (replies : List FaissReply)
    (k : Nat) (hal : r.vector_store.aligned)
    (hwf : ∀ rep ∈ replies, rep.wf r.vector_store.vectors.length k) :
    ∃ lists out,
      replies.mapM (fun rep => r.retrieve rep none) = .ok lists ∧
      r.retrieve_multi_query replies k = .ok out ∧
      out = (dedupAll [] ((lists.flatten).insertionSort
          (mqRel (r.vector_store.index_type = "cosine")))).take k ∧
      out.length ≤ k ∧
      (out.map (fun x => x.text)).Nodup ∧
      out.Pairwise (mqRel (r.vector_store.index_type = "cosine")) := by
  obtain ⟨lists, hl1, hl2⟩ := mapM_retrieve_ok r k hal replies hwf
  have hmulti : r.retrieve_multi_query replies k
      = .ok (dedupLoop k [] [] ((lists.flatten).insertionSort
          (mqRel (r.vector_store.index_type = "cosine")))) := by
    unfold SemanticRetriever.retrieve_multi_query
    rw [hl1]
  have hsorted : ((lists.flatten).insertionSort
      (mqRel (r.vector_store.index_type = "cosine"))).Pairwise
      (mqRel (r.vector_store.index_type = "cosine")) := by
    haveI := mqRel_total (decide (r.vector_store.index_type = "cosine"))
    haveI := mqRel_trans (decide (r.vector_store.index_type = "cosine"))
    exact List.sorted_insertionSort _ _
  have heq : dedupLoop k [] [] ((lists.flatten).insertionSort
        (mqRel (r.vector_store.index_type = "cosine")))
      = (dedupAll [] ((lists.flatten).insertionSort
          (mqRel (r.vector_store.index_type = "cosine")))).take k := by
    by_cases hk : k = 0
    · subst hk
      have hflat : lists.flatten = [] :=
        List.flatten_eq_nil_iff.mpr (fun l hl =>
          List.length_eq_zero.mp (Nat.le_zero.mp (hl2 l hl)))
      rw [hflat]
      rfl
    · have := dedupLoop_eq ((lists.flatten).insertionSort
        (mqRel (r.vector_store.index_type = "cosine"))) k [] [] (by simp; omega)
      simpa using this
  refine ⟨lists, _, hl1, hmulti, heq, ?_, ?_, ?_⟩
  · rw [heq, List.length_take]
    exact min_le_left _ _
  · rw [heq, List.map_take]
    exact List.Nodup.sublist (List.take_sublist _ _) (dedupAll_spec _ []).1
  · rw [heq]
    exact List.Pairwise.sublist
      ((List.take_sublist _ _).trans (dedupAll_sublist _ _)) hsorted

/-- Witness for C6: one query against a cosine store with two chunks,
`k = 2`. -/
theorem claim_C6_witness :
    ∃ lists out,
      ([⟨[9, 3], [0, 1]⟩] : List FaissReply).mapM
          (fun rep => SemanticRetriever.retrieve
            ⟨⟨2, "cosine", [[1, 0], [0, 1]], ["a", "b"], [[], []]⟩, 5, 0⟩ rep none)
        = .ok lists ∧
      SemanticRetriever.retrieve_multi_query
          ⟨⟨2, "cosine", [[1, 0], [0, 1]], ["a", "b"], [[], []]⟩, 5, 0⟩
          [⟨[9, 3], [0, 1]⟩] 2 = .ok out ∧
      out = (dedupAll [] ((lists.flatten).insertionSort
          (mqRel ((⟨⟨2, "cosine", [[1, 0], [0, 1]], ["a", "b"], [[], []]⟩, 5, 0⟩
            : SemanticRetriever).vector_store.index_type = "cosine")))).take 2 ∧
      out.length ≤ 2 ∧
      (out.map (fun x => x.text)).Nodup ∧
      out.Pairwise (mqRel ((⟨⟨2, "cosine", [[1, 0], [0, 1]], ["a", "b"], [[], []]⟩, 5, 0⟩
        : SemanticRetriever).vector_store.index_type = "cosine")) :=
  claim_C6_multi_query
    ⟨⟨2, "cosine", [[1, 0], [0, 1]], ["a", "b"], [[], []]⟩, 5, 0⟩
    [⟨[9, 3], [0, 1]⟩] 2 ⟨rfl, rfl⟩
    (fun rep hrep => by
      rw [List.mem_singleton] at hrep
      subst hrep
      exact ⟨rfl, rfl, [0, 1], by decide, by decide, by decide⟩)
